import Mathlib

/-!
Verification of the cohort-scheduling core (src/core/scheduling.py and
src/core/cohorts.py) against its specification.

Minutes within the week and interval endpoints are modelled as `Int`
(Python ints); person/course identifiers as `String`.  Python dicts are
modelled as insertion-ordered association lists.  The external Group
Optimizer and Balancer collaborators are modelled as oracle functions the
orchestrator is parameterised over, so theorems quantify over every
possible collaborator output.
-/

namespace Scheduling

/-- Person, from the `Person` dataclass in src/core/scheduling.py. -/
structure Person where
  id : String
  name : String
  intervals : List (Int × Int)
  if_needed_intervals : List (Int × Int)
  timezone : String
  courses : List String
  experience : String
deriving DecidableEq, Repr

/-- Group as produced by the optimizer: members and an optional selected
meeting time (a tuple in Python, hence always truthy when present). -/
structure Group where
  people : List Person
  selected_time : Option (Int × Int)
deriving DecidableEq, Repr

/-- CourseSchedulingResult dataclass. -/
structure CourseSchedulingResult where
  course_name : String
  groups : List Group
  score : Int
  unassigned : List Person
deriving DecidableEq, Repr

/-- MultiCourseSchedulingResult dataclass; `course_results` is the Python
dict modelled as an insertion-ordered association list. -/
structure MultiCourseSchedulingResult where
  course_results : List (String × CourseSchedulingResult)
  total_scheduled : Int
  total_cohorts : Nat
  total_balance_moves : Int
  total_people : Nat
deriving DecidableEq, Repr

/-- The scheduling exceptions (NoUsersError, NoFacilitatorsError). -/
inductive SchedulingError where
  | noUsers
  | noFacilitators
deriving DecidableEq, Repr

/-- Append `v` to the list stored under key `k` of an insertion-ordered
dict-of-lists (creating the key at the end if absent) — the
`if k not in d: d[k] = []; d[k].append(v)` pattern used throughout. -/
def dictAppend {α β : Type} [DecidableEq α] (m : List (α × List β)) (k : α) (v : β) :
    List (α × List β) :=
  match m with
  | [] => [(k, [v])]
  | e :: rest => if e.1 = k then (e.1, e.2 ++ [v]) :: rest else e :: dictAppend rest k v

/-- Dict lookup defaulting to the empty list (`d.get(k, [])`). -/
def lookupD {α β : Type} [DecidableEq α] (m : List (α × List β)) (k : α) : List β :=
  match m with
  | [] => []
  | e :: rest => if e.1 = k then e.2 else lookupD rest k

/-- Plain dict lookup (`d.get(k)`). -/
def alookup {α β : Type} [DecidableEq α] (m : List (α × β)) (k : α) : Option β :=
  match m with
  | [] => none
  | e :: rest => if e.1 = k then some e.2 else alookup rest k

/-- calculate_total_available_time from src/core/scheduling.py. -/
def calculate_total_available_time (person : Person) : Int :=
  (person.intervals.map (fun iv => iv.2 - iv.1)).sum
    + (person.if_needed_intervals.map (fun iv => iv.2 - iv.1)).sum

/-- group_people_by_course from src/core/scheduling.py. -/
def group_people_by_course (people : List Person) : List (String × List Person) :=
  people.foldl
    (fun m person =>
      if person.courses.isEmpty then dictAppend m "Uncategorized" person
      else person.courses.foldl (fun m course => dictAppend m course person) m)
    []

/-- The code's conflict test against a blocked list:
`start < b_end and end > b_start` for some blocked `(b_start, b_end)`. -/
def conflictsAny (iv : Int × Int) (blocked : List (Int × Int)) : Bool :=
  blocked.any (fun b => decide (iv.1 < b.2 ∧ iv.2 > b.1))

/-- remove_blocked_intervals from src/core/scheduling.py: the empty-list
fast path returns the person itself, otherwise both interval lists are
filtered and a new Person is built with all other fields copied. -/
def remove_blocked_intervals (person : Person) (blocked_times : List (Int × Int)) : Person :=
  match blocked_times with
  | [] => person
  | _ :: _ =>
      { person with
        intervals := person.intervals.filter (fun iv => !conflictsAny iv blocked_times)
        if_needed_intervals :=
          person.if_needed_intervals.filter (fun iv => !conflictsAny iv blocked_times) }

/-- The spec's conflict relation (4.1): `(s1,e1)`, `(s2,e2)` conflict iff
`s1 < e2 and s2 < e1`; here applied between a candidate interval and each
member of a blocked list.  Stated from the spec's words, for comparison
with the code's `conflictsAny`. -/
def specConflicts (iv : Int × Int) (blocked : List (Int × Int)) : Bool :=
  blocked.any (fun b => decide (iv.1 < b.2 ∧ b.1 < iv.2))

/-- Wellformedness of one interval list, per the data model (section 3):
sorted and non-overlapping, each range non-empty. -/
def intervalsWF (l : List (Int × Int)) : Prop :=
  l.Pairwise (fun a b => a.2 ≤ b.1) ∧ ∀ iv ∈ l, iv.1 < iv.2

instance intervalsWF_decidable (l : List (Int × Int)) : Decidable (intervalsWF l) := by
  unfold intervalsWF; infer_instance

/-! ## Basic dictionary lemmas -/

theorem lookupD_dictAppend {α β : Type} [DecidableEq α]
    (m : List (α × List β)) (k k' : α) (v : β) :
    lookupD (dictAppend m k v) k' = lookupD m k' ++ (if k' = k then [v] else []) := by
  induction m with
  | nil =>
      simp only [dictAppend, lookupD, List.nil_append]
      by_cases h : k' = k
      · rw [if_pos h.symm, if_pos h]
      · rw [if_neg (fun hh => h hh.symm), if_neg h]
  | cons e rest ih =>
      by_cases he : e.1 = k
      · simp only [dictAppend, if_pos he]
        by_cases h2 : e.1 = k'
        · have hk : k' = k := h2 ▸ he
          simp only [lookupD, if_pos h2, if_pos hk, List.append_assoc]
        · have hk : ¬ k' = k := fun hh => h2 (he.trans hh.symm)
          simp only [lookupD, if_neg h2, if_neg hk, List.append_nil]
      · simp only [dictAppend, if_neg he]
        by_cases h2 : e.1 = k'
        · have hk : ¬ k' = k := fun hh => he (h2.trans hh)
          simp only [lookupD, if_pos h2, if_neg hk, List.append_nil]
        · simp only [lookupD, if_neg h2, ih]

theorem mem_lookupD_dictAppend {α β : Type} [DecidableEq α]
    (m : List (α × List β)) (k k' : α) (v x : β) :
    x ∈ lookupD (dictAppend m k v) k' ↔ x ∈ lookupD m k' ∨ (k' = k ∧ x = v) := by
  rw [lookupD_dictAppend]
  by_cases h : k' = k <;> simp [h]

theorem mem_lookupD_dictAppend_of_mem {α β : Type} [DecidableEq α]
    (m : List (α × List β)) (k k' : α) (v x : β) (hx : x ∈ lookupD m k') :
    x ∈ lookupD (dictAppend m k v) k' :=
  (mem_lookupD_dictAppend m k k' v x).mpr (Or.inl hx)

/-- Keys reachable after a `dictAppend`. -/
theorem mem_keys_dictAppend {α β : Type} [DecidableEq α]
    (m : List (α × List β)) (k a : α) (v : β) :
    a ∈ (dictAppend m k v).map (fun e => e.1) ↔ a ∈ m.map (fun e => e.1) ∨ a = k := by
  induction m with
  | nil => simp [dictAppend]
  | cons e rest ih =>
      by_cases he : e.1 = k
      · simp only [dictAppend, if_pos he, List.map_cons]
        rw [he]
        simp
        tauto
      · simp only [dictAppend, if_neg he, List.map_cons]
        simp [ih]
        tauto

/-- `dictAppend` keeps the keys duplicate-free. -/
theorem keys_nodup_dictAppend {α β : Type} [DecidableEq α]
    (m : List (α × List β)) (k : α) (v : β)
    (h : (m.map (fun e => e.1)).Nodup) :
    ((dictAppend m k v).map (fun e => e.1)).Nodup := by
  induction m with
  | nil => simp [dictAppend]
  | cons e rest ih =>
      rw [List.map_cons, List.nodup_cons] at h
      by_cases he : e.1 = k
      · simp only [dictAppend, if_pos he, List.map_cons, List.nodup_cons]
        exact ⟨h.1, h.2⟩
      · simp only [dictAppend, if_neg he, List.map_cons, List.nodup_cons]
        refine ⟨?_, ih h.2⟩
        intro hmem
        rcases (mem_keys_dictAppend rest k e.1 v).mp hmem with h1 | h1
        · exact h.1 h1
        · exact he h1

/-- In a dict with duplicate-free keys, an entry's stored list is its
lookup. -/
theorem lookupD_of_mem_of_nodup {α β : Type} [DecidableEq α]
    (m : List (α × List β)) (e : α × List β)
    (hnd : (m.map (fun x => x.1)).Nodup) (he : e ∈ m) :
    lookupD m e.1 = e.2 := by
  induction m with
  | nil => cases he
  | cons f rest ih =>
      rw [List.map_cons, List.nodup_cons] at hnd
      rcases List.mem_cons.mp he with he1 | he1
      · subst he1; simp [lookupD]
      · have hne : ¬ f.1 = e.1 := by
          intro h
          exact hnd.1 (h ▸ (List.mem_map.mpr ⟨e, he1, rfl⟩))
        simp only [lookupD, if_neg hne]
        exact ih hnd.2 he1

/-- A key with a non-empty lookup is backed by an entry of the dict. -/
theorem entry_of_lookupD_ne_nil {α β : Type} [DecidableEq α]
    (m : List (α × List β)) (k : α) (h : lookupD m k ≠ []) :
    (k, lookupD m k) ∈ m := by
  induction m with
  | nil => simp [lookupD] at h
  | cons e rest ih =>
      by_cases he : e.1 = k
      · subst he
        simp only [lookupD, if_pos rfl]
        exact List.mem_cons_self _ _
      · simp only [lookupD, if_neg he] at h ⊢
        exact List.mem_cons_of_mem _ (ih h)

/-! ## C9: no-op blocker -/

/-- C9: calling remove_blocked_intervals with an empty blocked list
returns the very same Person — intervals and if_needed_intervals are the
input's own lists, identical in structure and order. -/
theorem C9_noop_blocker_identity (person : Person) :
    remove_blocked_intervals person [] = person
      ∧ (remove_blocked_intervals person []).intervals = person.intervals
      ∧ (remove_blocked_intervals person []).if_needed_intervals = person.if_needed_intervals :=
  ⟨rfl, rfl, rfl⟩

/-! ## C3: blocker filtering correctness -/

/-- C3: remove_blocked_intervals keeps exactly the input ranges that do
not conflict (spec 4.1: `s1 < e2 and s2 < e1`, half-open) with any blocked
interval, for both interval lists; being a filter of the input lists it
never adds or widens an interval. -/
theorem C3_blocker_filters_exactly (person : Person) (blocked : List (Int × Int)) :
    (remove_blocked_intervals person blocked).intervals
        = person.intervals.filter (fun iv => !specConflicts iv blocked)
      ∧ (remove_blocked_intervals person blocked).if_needed_intervals
        = person.if_needed_intervals.filter (fun iv => !specConflicts iv blocked)
      ∧ ∀ iv : Int × Int,
          specConflicts iv blocked = true ↔ ∃ b ∈ blocked, iv.1 < b.2 ∧ b.1 < iv.2 := by
  have hconf : ∀ iv : Int × Int, conflictsAny iv blocked = specConflicts iv blocked := by
    intro iv
    simp [conflictsAny, specConflicts, gt_iff_lt]
  refine ⟨?_, ?_, ?_⟩
  · cases blocked with
    | nil => simp [remove_blocked_intervals, specConflicts]
    | cons b rest => simp [remove_blocked_intervals, hconf]
  · cases blocked with
    | nil => simp [remove_blocked_intervals, specConflicts]
    | cons b rest => simp [remove_blocked_intervals, hconf]
  · intro iv
    simp [specConflicts, List.any_eq_true]

/-! ## C7: course grouper bucketing -/

/-- Membership in a course bucket, per the spec's Course Grouper contract:
a person with courses is in the buckets named by their courses, a person
with none only in the reserved "Uncategorized" bucket. -/
def inBucket (b : String) (p : Person) : Prop :=
  if p.courses.isEmpty then b = "Uncategorized" else b ∈ p.courses

instance inBucket_decidable (b : String) (p : Person) : Decidable (inBucket b p) := by
  unfold inBucket; infer_instance

theorem lookupD_courses_foldl (cs : List String) (m : List (String × List Person))
    (p : Person) (b : String) (hnd : cs.Nodup) :
    lookupD (cs.foldl (fun m course => dictAppend m course p) m) b
      = lookupD m b ++ (if b ∈ cs then [p] else []) := by
  induction cs generalizing m with
  | nil => simp
  | cons c rest ih =>
      rw [List.nodup_cons] at hnd
      rw [List.foldl_cons, ih _ hnd.2, lookupD_dictAppend]
      by_cases hbc : b = c
      · subst hbc
        have hbr : b ∉ rest := hnd.1
        simp [hbr]
      · by_cases hbr : b ∈ rest <;> simp [hbr, hbc, List.mem_cons]

theorem lookupD_bucketStep (m : List (String × List Person)) (p : Person) (b : String)
    (hnd : p.courses.Nodup) :
    lookupD
        (if p.courses.isEmpty then dictAppend m "Uncategorized" p
         else p.courses.foldl (fun m course => dictAppend m course p) m) b
      = lookupD m b ++ (if inBucket b p then [p] else []) := by
  by_cases he : p.courses.isEmpty
  · rw [if_pos he, lookupD_dictAppend]
    simp [inBucket, he]
  · rw [if_neg he, lookupD_courses_foldl _ _ _ _ hnd]
    simp [inBucket, he]

theorem lookupD_gpbc_foldl (b : String) (people : List Person) :
    (∀ p ∈ people, p.courses.Nodup) →
    ∀ m : List (String × List Person),
      lookupD
          (people.foldl
            (fun m person =>
              if person.courses.isEmpty then dictAppend m "Uncategorized" person
              else person.courses.foldl (fun m course => dictAppend m course person) m)
            m) b
        = lookupD m b ++ people.filter (fun p => decide (inBucket b p)) := by
  induction people with
  | nil => intro _ m; simp
  | cons p rest ih =>
      intro h m
      rw [List.foldl_cons, ih (fun q hq => h q (List.mem_cons_of_mem p hq)),
        lookupD_bucketStep m p b (h p (List.mem_cons_self p rest)), List.filter_cons]
      by_cases hb : inBucket b p
      · simp [hb]
      · simp [hb]

/-- C7: for every input whose persons carry duplicate-free course lists
(the data model declares `courses` a set), every bucket produced by
group_people_by_course is exactly the input list filtered to the people
belonging to that bucket — so a person enrolled in N courses is in
precisely those N buckets, a person with no courses only in
"Uncategorized", and bucket order follows input order. -/
theorem C7_course_grouper_buckets (people : List Person)
    (h : ∀ p ∈ people, p.courses.Nodup) (b : String) :
    lookupD (group_people_by_course people) b
      = people.filter (fun p => decide (inBucket b p)) := by
  have := lookupD_gpbc_foldl b people h []
  simpa [group_people_by_course, lookupD] using this

/-- Demo population for the C7 witness: one two-course person, one
course-less person. -/
def c7alice : Person := ⟨"alice", "Alice", [(0, 60)], [], "UTC", ["a", "b"], ""⟩

def c7bob : Person := ⟨"bob", "Bob", [(60, 120)], [], "UTC", [], ""⟩

/-- Witness for C7 at a concrete population: the "a" bucket holds exactly
the person enrolled in course "a". -/
theorem C7_witness :
    lookupD (group_people_by_course [c7alice, c7bob]) "a"
      = [c7alice, c7bob].filter (fun p => decide (inBucket "a" p)) :=
  C7_course_grouper_buckets [c7alice, c7bob] (by decide) "a"

/-! ## The multi-course scheduling orchestrator (schedule_people)

The external Group Optimizer (cohort_scheduler.schedule, reached through
run_scheduling) is modelled as an oracle given the course name, the
adjusted population and the per-course facilitator ids, returning the
proposed groups and the score; the Balancer (cohort_scheduler
balance_groups, an in-place mutation returning a move count) as an oracle
from course name and group list to the new group list and the count.
Parameters that are only forwarded verbatim to the collaborators
(meeting_length, max_people, num_iterations, use_if_needed, callbacks)
are absorbed into the oracles. -/

/-- Optimizer oracle: course name, adjusted people, course facilitator
ids → (groups, score). -/
def OptOracle : Type := String → List Person → Option (List String) → List Group × Int

/-- Balancer oracle: course name, groups → (balanced groups, moves). -/
def BalOracle : Type := String → List Group → List Group × Int

/-- Python truthiness of the `facilitator_ids` parameter (None or a set):
None and the empty set are falsy. -/
def facTruthy : Option (List String) → Bool
  | none => false
  | some s => !s.isEmpty

/-- The per-course facilitator set: stays None unless `facilitator_ids`
is truthy, in which case it is `{p.id for p in people if p.id in
facilitator_ids}` (a set, hence deduplicated). -/
def courseFacIds (facilitator_ids : Option (List String)) (people : List Person) :
    Option (List String) :=
  if facTruthy facilitator_ids then
    some (((people.filter (fun p => (facilitator_ids.getD []).contains p.id)).map
      (fun p => p.id)).dedup)
  else none

/-- Adjusted population for one course: each person's availability with
their already-assigned times removed (scheduling.py lines 268-272). -/
def adjustPeople (assigned_times : List (String × List (Int × Int))) (people : List Person) :
    List Person :=
  people.map (fun p => remove_blocked_intervals p (lookupD assigned_times p.id))

/-- The optimizer invocation for one course. -/
def optOutcome (opt : OptOracle) (facilitator_ids : Option (List String))
    (assigned_times : List (String × List (Int × Int))) (c : String × List Person) :
    List Group × Int :=
  opt c.1 (adjustPeople assigned_times c.2) (courseFacIds facilitator_ids c.2)

/-- Optimizer followed by the conditional balancing step
(`if balance and solution and len(solution) >= 2`): returns
((groups, score), moves). -/
def balancedOutcome (balance : Bool) (opt : OptOracle) (bal : BalOracle)
    (facilitator_ids : Option (List String))
    (assigned_times : List (String × List (Int × Int))) (c : String × List Person) :
    (List Group × Int) × Int :=
  let r := optOutcome opt facilitator_ids assigned_times c
  if balance && decide (2 ≤ r.1.length) then
    let b := bal c.1 r.1
    ((b.1, r.2), b.2)
  else (r, 0)

/-- One group's contribution to the assigned-times dict: if the group has
a selected_time (`if group.selected_time:` — a tuple, truthy whenever
present), append it for every member. -/
def recordGroupStep (m : List (String × List (Int × Int))) (g : Group) :
    List (String × List (Int × Int)) :=
  match g.selected_time with
  | some t => g.people.foldl (fun m p => dictAppend m p.id t) m
  | none => m

/-- Record every produced group's selected_time as a blocked interval for
each of its members (scheduling.py lines 297-304). -/
def recordGroupTimes (m : List (String × List (Int × Int))) (sol : List Group) :
    List (String × List (Int × Int)) :=
  sol.foldl recordGroupStep m

/-- Mutable state of the loop over courses in schedule_people, plus a log
of the courses for which the Group Optimizer was actually invoked. -/
structure SchedState where
  course_results : List (String × CourseSchedulingResult)
  total_scheduled : Int
  total_cohorts : Nat
  total_balance_moves : Int
  assigned_times : List (String × List (Int × Int))
  callLog : List String
deriving DecidableEq, Repr

def initState : SchedState := ⟨[], 0, 0, 0, [], []⟩

/-- `assigned_ids = {p.id for g in solution for p in g.people}`. -/
def assignedIdsOf (solution : List Group) : List String :=
  solution.foldl (fun acc g => acc ++ g.people.map (fun p => p.id)) []

/-- One iteration of the course loop of schedule_people (scheduling.py
lines 243-321). -/
def stepCourse (min_people : Nat) (balance : Bool) (facilitator_ids : Option (List String))
    (opt : OptOracle) (bal : BalOracle) (st : SchedState) (c : String × List Person) :
    SchedState :=
  if c.2.length < min_people then
    { st with course_results := st.course_results ++ [(c.1, ⟨c.1, [], 0, c.2⟩)] }
  else if courseFacIds facilitator_ids c.2 = some [] then
    { st with course_results := st.course_results ++ [(c.1, ⟨c.1, [], 0, c.2⟩)] }
  else if (balancedOutcome balance opt bal facilitator_ids st.assigned_times c).1.1.isEmpty then
    { st with
      course_results := st.course_results ++ [(c.1, ⟨c.1, [],
        (balancedOutcome balance opt bal facilitator_ids st.assigned_times c).1.2, c.2⟩)]
      total_balance_moves := st.total_balance_moves
        + (balancedOutcome balance opt bal facilitator_ids st.assigned_times c).2
      callLog := st.callLog ++ [c.1] }
  else
    { st with
      course_results := st.course_results ++ [(c.1, ⟨c.1,
        (balancedOutcome balance opt bal facilitator_ids st.assigned_times c).1.1,
        (balancedOutcome balance opt bal facilitator_ids st.assigned_times c).1.2,
        c.2.filter (fun p =>
          !(assignedIdsOf
            (balancedOutcome balance opt bal facilitator_ids st.assigned_times c).1.1).contains
            p.id)⟩)]
      total_scheduled := st.total_scheduled
        + (balancedOutcome balance opt bal facilitator_ids st.assigned_times c).1.2
      total_cohorts := st.total_cohorts
        + (balancedOutcome balance opt bal facilitator_ids st.assigned_times c).1.1.length
      total_balance_moves := st.total_balance_moves
        + (balancedOutcome balance opt bal facilitator_ids st.assigned_times c).2
      assigned_times := recordGroupTimes st.assigned_times
        (balancedOutcome balance opt bal facilitator_ids st.assigned_times c).1.1
      callLog := st.callLog ++ [c.1] }

/-- The course loop. -/
def runCourses (min_people : Nat) (balance : Bool) (facilitator_ids : Option (List String))
    (opt : OptOracle) (bal : BalOracle) (st : SchedState) :
    List (String × List Person) → SchedState
  | [] => st
  | c :: cs =>
      runCourses min_people balance facilitator_ids opt bal
        (stepCourse min_people balance facilitator_ids opt bal st c) cs

/-- schedule_people from src/core/scheduling.py. -/
def schedule_people (all_people : List Person) (min_people : Nat) (balance : Bool)
    (facilitator_ids : Option (List String)) (opt : OptOracle) (bal : BalOracle) :
    MultiCourseSchedulingResult :=
  let fin := runCourses min_people balance facilitator_ids opt bal initState
    (group_people_by_course all_people)
  ⟨fin.course_results, fin.total_scheduled, fin.total_cohorts, fin.total_balance_moves,
    all_people.length⟩

/-- The facilitator-id set schedule extracts from loaded user data
(`{user_id for user_id, data in user_data.items() if
data.get("is_facilitator", False)}`). -/
def facilitatorsOf (user_data : List (String × Bool)) : List String :=
  ((user_data.filter (fun e => e.2)).map (fun e => e.1)).dedup

/-- schedule from src/core/scheduling.py, parameterised by the population
and user data its enrollment collaborator loads from the database. -/
def schedule (all_people : List Person) (user_data : List (String × Bool))
    (facilitator_mode : Bool) (min_people : Nat) (balance : Bool)
    (opt : OptOracle) (bal : BalOracle) :
    Except SchedulingError MultiCourseSchedulingResult :=
  if all_people.isEmpty then .error .noUsers
  else if facilitator_mode then
    if (facilitatorsOf user_data).isEmpty then .error .noFacilitators
    else .ok (schedule_people all_people min_people balance (some (facilitatorsOf user_data))
      opt bal)
  else .ok (schedule_people all_people min_people balance none opt bal)

/-! ## C8: blocker preserves the availability invariant and is monotone -/

theorem intervalsWF_sublist {l1 l2 : List (Int × Int)}
    (hs : List.Sublist l1 l2) (h : intervalsWF l2) : intervalsWF l1 :=
  ⟨h.1.sublist hs, fun iv hiv => h.2 iv (hs.subset hiv)⟩

theorem filter_time_sum_le (l : List (Int × Int)) (p : Int × Int → Bool)
    (h : ∀ iv ∈ l, iv.1 < iv.2) :
    ((l.filter p).map (fun iv => iv.2 - iv.1)).sum ≤ (l.map (fun iv => iv.2 - iv.1)).sum := by
  have hsub : List.Sublist ((l.filter p).map (fun iv => iv.2 - iv.1))
      (l.map (fun iv => iv.2 - iv.1)) :=
    (List.filter_sublist l).map _
  refine hsub.sum_le_sum ?_
  intro x hx
  rcases List.mem_map.mp hx with ⟨iv, hiv, rfl⟩
  have := h iv hiv
  omega

/-- C8: on a Person whose interval lists satisfy the data-model invariant
(sorted, non-overlapping, non-empty ranges), remove_blocked_intervals
keeps the invariant on both lists and never increases the total available
minutes. -/
theorem C8_blocker_invariant_monotone (person : Person) (blocked : List (Int × Int))
    (h1 : intervalsWF person.intervals) (h2 : intervalsWF person.if_needed_intervals) :
    intervalsWF (remove_blocked_intervals person blocked).intervals
      ∧ intervalsWF (remove_blocked_intervals person blocked).if_needed_intervals
      ∧ calculate_total_available_time (remove_blocked_intervals person blocked)
          ≤ calculate_total_available_time person := by
  cases blocked with
  | nil => exact ⟨h1, h2, le_refl _⟩
  | cons b rest =>
      refine ⟨intervalsWF_sublist (List.filter_sublist _) h1,
        intervalsWF_sublist (List.filter_sublist _) h2, ?_⟩
      unfold calculate_total_available_time remove_blocked_intervals
      exact add_le_add (filter_time_sum_le _ _ h1.2) (filter_time_sum_le _ _ h2.2)

def c8person : Person :=
  ⟨"carol", "Carol", [(0, 60), (60, 120)], [(240, 300)], "UTC", [], ""⟩

/-- Witness for C8 at a concrete person and blocked list. -/
theorem C8_witness :
    intervalsWF (remove_blocked_intervals c8person [(30, 90)]).intervals
      ∧ intervalsWF (remove_blocked_intervals c8person [(30, 90)]).if_needed_intervals
      ∧ calculate_total_available_time (remove_blocked_intervals c8person [(30, 90)])
          ≤ calculate_total_available_time c8person :=
  C8_blocker_invariant_monotone c8person [(30, 90)] (by decide) (by decide)

/-! ## C5: result totals -/

/-- C5 as frozen fails: an optimizer output of zero groups with a
non-zero score is recorded in the course's result but never added to
total_scheduled.  What the code maintains: total_people is the input
length, and total_scheduled sums the scores of exactly the course results
whose groups list is non-empty. -/
theorem C5_amended_totals (all_people : List Person) (min_people : Nat) (balance : Bool)
    (facilitator_ids : Option (List String)) (opt : OptOracle) (bal : BalOracle) :
    (schedule_people all_people min_people balance facilitator_ids opt bal).total_people
        = all_people.length
    ∧ (schedule_people all_people min_people balance facilitator_ids opt bal).total_scheduled
        = (((schedule_people all_people min_people balance
              facilitator_ids opt bal).course_results.filter
            (fun e => !e.2.groups.isEmpty)).map (fun e => e.2.score)).sum := by
  refine ⟨rfl, ?_⟩
  suffices hinv : ∀ (l : List (String × List Person)) (st : SchedState),
      st.total_scheduled = ((st.course_results.filter (fun e => !e.2.groups.isEmpty)).map
          (fun e => e.2.score)).sum →
      (runCourses min_people balance facilitator_ids opt bal st l).total_scheduled
        = (((runCourses min_people balance facilitator_ids opt bal st l).course_results.filter
            (fun e => !e.2.groups.isEmpty)).map (fun e => e.2.score)).sum by
    exact hinv _ initState (by simp [initState])
  intro l
  induction l with
  | nil => intro st h; exact h
  | cons c cs ih =>
      intro st h
      rw [runCourses]
      refine ih _ ?_
      unfold stepCourse
      by_cases h1 : c.2.length < min_people
      · simp [h1, h]
      · by_cases h2 : courseFacIds facilitator_ids c.2 = some []
        · simp [h1, h2, h]
        · simp only [if_neg h1, if_neg h2]
          by_cases h3 : (balancedOutcome balance opt bal facilitator_ids
              st.assigned_times c).1.1.isEmpty
          · simp [h3, h]
          · simp [h3, h, List.filter_append, List.map_append, List.sum_append]

/-! ## C10: empty facilitator set behaves as None -/

/-- C10: schedule_people with `facilitator_ids = ∅` (falsy in Python)
produces the very same run as with None: identical final loop state and
result, and the per-course facilitator short-circuit can never fire
because the computed per-course facilitator set stays None. -/
theorem C10_empty_facilitator_set_is_none (all_people : List Person) (min_people : Nat)
    (balance : Bool) (opt : OptOracle) (bal : BalOracle) :
    schedule_people all_people min_people balance (some []) opt bal
        = schedule_people all_people min_people balance none opt bal
    ∧ runCourses min_people balance (some []) opt bal initState
          (group_people_by_course all_people)
        = runCourses min_people balance none opt bal initState
          (group_people_by_course all_people)
    ∧ ∀ people : List Person,
        courseFacIds (some []) people = none ∧ courseFacIds (some []) people ≠ some [] := by
  have hstep : ∀ st c, stepCourse min_people balance (some []) opt bal st c
      = stepCourse min_people balance none opt bal st c := by
    intro st c
    rfl
  have hrun : ∀ (l : List (String × List Person)) (st : SchedState),
      runCourses min_people balance (some []) opt bal st l
        = runCourses min_people balance none opt bal st l := by
    intro l
    induction l with
    | nil => intro st; rfl
    | cons c cs ih =>
        intro st
        rw [runCourses, runCourses, hstep, ih]
  refine ⟨?_, hrun _ _, fun people => ⟨rfl, by simp [courseFacIds, facTruthy]⟩⟩
  unfold schedule_people
  rw [hrun]

/-! ## C2: exception taxonomy of schedule -/

/-- C2 as frozen fails on the empty population with facilitator mode on:
the code raises NoUsersError there, though facilitator_mode is true and
zero facilitators are marked.  The code's actual taxonomy: NoUsersError
iff the loaded population is empty; NoFacilitatorsError iff the
population is non-empty, facilitator mode is on and no facilitator is
marked; in every other case the call returns a result — per-course
insufficiencies never raise. -/
theorem C2_amended_taxonomy (all_people : List Person) (user_data : List (String × Bool))
    (facilitator_mode : Bool) (min_people : Nat) (balance : Bool)
    (opt : OptOracle) (bal : BalOracle) :
    (schedule all_people user_data facilitator_mode min_people balance opt bal
        = .error .noUsers ↔ all_people = [])
    ∧ (schedule all_people user_data facilitator_mode min_people balance opt bal
        = .error .noFacilitators
        ↔ all_people ≠ [] ∧ facilitator_mode = true ∧ facilitatorsOf user_data = [])
    ∧ (all_people ≠ [] ∧ (facilitator_mode = true → facilitatorsOf user_data ≠ []) →
        ∃ r, schedule all_people user_data facilitator_mode min_people balance opt bal
          = .ok r) := by
  cases facilitator_mode with
  | false =>
      cases all_people with
      | nil => simp [schedule]
      | cons p ps => simp [schedule]
  | true =>
      cases all_people with
      | nil => simp [schedule]
      | cons p ps =>
          by_cases hfac : (facilitatorsOf user_data).isEmpty
          · have hnil : facilitatorsOf user_data = [] := List.isEmpty_iff.mp hfac
            simp [schedule, hfac, hnil]
          · have hne : facilitatorsOf user_data ≠ [] := by
              intro hh
              rw [hh] at hfac
              exact hfac rfl
            simp [schedule, hfac, hne]

/-! ## C6: per-course short-circuit -/

theorem keys_nodup_courses_foldl (cs : List String) (p : Person) :
    ∀ m : List (String × List Person), (m.map (fun e => e.1)).Nodup →
      (((cs.foldl (fun m course => dictAppend m course p) m).map (fun e => e.1)).Nodup) := by
  induction cs with
  | nil => intro m h; exact h
  | cons c rest ih => intro m h; exact ih _ (keys_nodup_dictAppend m c p h)

/-- The Course Grouper's mapping, being a Python dict, has pairwise
distinct course keys. -/
theorem gpbc_keys_nodup (all_people : List Person) :
    ((group_people_by_course all_people).map (fun e => e.1)).Nodup := by
  suffices hgen : ∀ (l : List Person) (m : List (String × List Person)),
      (m.map (fun e => e.1)).Nodup →
      ((l.foldl
          (fun m person =>
            if person.courses.isEmpty then dictAppend m "Uncategorized" person
            else person.courses.foldl (fun m course => dictAppend m course person) m)
          m).map (fun e => e.1)).Nodup by
    exact hgen all_people [] (by simp)
  intro l
  induction l with
  | nil => intro m h; exact h
  | cons p rest ih =>
      intro m h
      rw [List.foldl_cons]
      refine ih _ ?_
      dsimp only
      by_cases he : p.courses.isEmpty
      · rw [if_pos he]
        exact keys_nodup_dictAppend m "Uncategorized" p h
      · rw [if_neg he]
        exact keys_nodup_courses_foldl p.courses p m h

/-- Every iteration of the course loop appends exactly one result entry,
keyed by the course's name. -/
theorem stepCourse_results (min_people : Nat) (balance : Bool)
    (facilitator_ids : Option (List String)) (opt : OptOracle) (bal : BalOracle)
    (st : SchedState) (c : String × List Person) :
    ∃ res, (stepCourse min_people balance facilitator_ids opt bal st c).course_results
      = st.course_results ++ [(c.1, res)] := by
  unfold stepCourse
  by_cases h1 : c.2.length < min_people
  · exact ⟨⟨c.1, [], 0, c.2⟩, by rw [if_pos h1]⟩
  · by_cases h2 : courseFacIds facilitator_ids c.2 = some []
    · exact ⟨⟨c.1, [], 0, c.2⟩, by rw [if_neg h1, if_pos h2]⟩
    · by_cases h3 : (balancedOutcome balance opt bal facilitator_ids
          st.assigned_times c).1.1.isEmpty
      · exact ⟨⟨c.1, [],
          (balancedOutcome balance opt bal facilitator_ids st.assigned_times c).1.2, c.2⟩,
          by rw [if_neg h1, if_neg h2, if_pos h3]⟩
      · exact ⟨⟨c.1,
          (balancedOutcome balance opt bal facilitator_ids st.assigned_times c).1.1,
          (balancedOutcome balance opt bal facilitator_ids st.assigned_times c).1.2,
          c.2.filter (fun p =>
            !(assignedIdsOf
              (balancedOutcome balance opt bal facilitator_ids
                st.assigned_times c).1.1).contains p.id)⟩,
          by rw [if_neg h1, if_neg h2, if_neg h3]⟩

theorem runCourses_results (min_people : Nat) (balance : Bool)
    (facilitator_ids : Option (List String)) (opt : OptOracle) (bal : BalOracle)
    (l : List (String × List Person)) :
    ∀ st : SchedState, ∃ extra,
      (runCourses min_people balance facilitator_ids opt bal st l).course_results
          = st.course_results ++ extra
        ∧ ∀ e ∈ extra, e.1 ∈ l.map (fun x => x.1) := by
  induction l with
  | nil => exact fun st => ⟨[], by simp [runCourses], by simp⟩
  | cons c cs ih =>
      intro st
      obtain ⟨res, hres⟩ := stepCourse_results min_people balance facilitator_ids opt bal st c
      obtain ⟨extra, hex, hkeys⟩ :=
        ih (stepCourse min_people balance facilitator_ids opt bal st c)
      refine ⟨(c.1, res) :: extra, ?_, ?_⟩
      · rw [runCourses, hex, hres, List.append_assoc]
        rfl
      · intro e he
        rcases List.mem_cons.mp he with he1 | he1
        · subst he1; simp
        · simp only [List.map_cons, List.mem_cons]
          exact Or.inr (hkeys e he1)

theorem stepCourse_callLog (min_people : Nat) (balance : Bool)
    (facilitator_ids : Option (List String)) (opt : OptOracle) (bal : BalOracle)
    (st : SchedState) (c : String × List Person) (x : String)
    (hx : x ∈ (stepCourse min_people balance facilitator_ids opt bal st c).callLog) :
    x ∈ st.callLog ∨ x = c.1 := by
  unfold stepCourse at hx
  by_cases h1 : c.2.length < min_people
  · rw [if_pos h1] at hx; exact Or.inl hx
  · rw [if_neg h1] at hx
    by_cases h2 : courseFacIds facilitator_ids c.2 = some []
    · rw [if_pos h2] at hx; exact Or.inl hx
    · rw [if_neg h2] at hx
      by_cases h3 : (balancedOutcome balance opt bal facilitator_ids
          st.assigned_times c).1.1.isEmpty
      · rw [if_pos h3] at hx
        dsimp only at hx
        rcases List.mem_append.mp hx with h | h
        · exact Or.inl h
        · exact Or.inr (List.mem_singleton.mp h)
      · rw [if_neg h3] at hx
        dsimp only at hx
        rcases List.mem_append.mp hx with h | h
        · exact Or.inl h
        · exact Or.inr (List.mem_singleton.mp h)

theorem runCourses_callLog (min_people : Nat) (balance : Bool)
    (facilitator_ids : Option (List String)) (opt : OptOracle) (bal : BalOracle)
    (l : List (String × List Person)) :
    ∀ (st : SchedState) (x : String),
      x ∈ (runCourses min_people balance facilitator_ids opt bal st l).callLog →
      x ∈ st.callLog ∨ x ∈ l.map (fun e => e.1) := by
  induction l with
  | nil => exact fun st x hx => Or.inl hx
  | cons c cs ih =>
      intro st x hx
      rw [runCourses] at hx
      rcases ih _ x hx with h | h
      · rcases stepCourse_callLog min_people balance facilitator_ids opt bal st c x h with
          h' | h'
        · exact Or.inl h'
        · exact Or.inr (by simp [h'])
      · exact Or.inr (by simp [h])

/-- A course whose bucket is too small, or — in facilitator mode — has no
facilitator, is recorded as the zero result and changes nothing else. -/
theorem stepCourse_short (min_people : Nat) (balance : Bool)
    (facilitator_ids : Option (List String)) (opt : OptOracle) (bal : BalOracle)
    (st : SchedState) (c : String × List Person)
    (h : c.2.length < min_people
      ∨ ∃ s, facilitator_ids = some s ∧ s ≠ [] ∧ ∀ p ∈ c.2, s.contains p.id = false) :
    stepCourse min_people balance facilitator_ids opt bal st c
      = { st with course_results := st.course_results ++ [(c.1, ⟨c.1, [], 0, c.2⟩)] } := by
  unfold stepCourse
  by_cases h1 : c.2.length < min_people
  · rw [if_pos h1]
  · rw [if_neg h1]
    rcases h with h | ⟨s, hfi, hs, hall⟩
    · exact absurd h h1
    · have hfac : courseFacIds facilitator_ids c.2 = some [] := by
        subst hfi
        have htr : facTruthy (some s) = true := by
          simp [facTruthy, List.isEmpty_iff, hs]
        have hfil : c.2.filter (fun p => s.contains p.id) = [] := by
          rw [List.filter_eq_nil_iff]
          intro a ha
          rw [hall a ha]
          exact Bool.false_ne_true
        simp only [courseFacIds, htr, if_true, Option.getD, hfil]
        rfl
      rw [if_pos hfac]

theorem runCourses_append (min_people : Nat) (balance : Bool)
    (facilitator_ids : Option (List String)) (opt : OptOracle) (bal : BalOracle)
    (l1 l2 : List (String × List Person)) :
    ∀ st : SchedState,
      runCourses min_people balance facilitator_ids opt bal st (l1 ++ l2)
        = runCourses min_people balance facilitator_ids opt bal
            (runCourses min_people balance facilitator_ids opt bal st l1) l2 := by
  induction l1 with
  | nil => intro st; rfl
  | cons c cs ih => intro st; rw [List.cons_append, runCourses, runCourses, ih]

theorem alookup_middle {α β : Type} [DecidableEq α] (l1 l2 : List (α × β)) (k : α) (r : β)
    (h : ∀ e ∈ l1, e.1 ≠ k) : alookup (l1 ++ (k, r) :: l2) k = some r := by
  induction l1 with
  | nil => simp [alookup]
  | cons e rest ih =>
      rw [List.cons_append]
      have hne : ¬ e.1 = k := h e (List.mem_cons_self e rest)
      simp only [alookup, if_neg hne]
      exact ih (fun e' he' => h e' (List.mem_cons_of_mem e he'))

/-- C6: a course bucket below min_size, or in facilitator mode a
facilitator-less bucket (a non-empty facilitator set was supplied and no
bucket member belongs to it), is recorded with zero groups, score 0 and
the whole bucket unassigned, and the Group Optimizer is never invoked
for that course. -/
theorem C6_per_course_short_circuit (min_people : Nat) (balance : Bool)
    (facilitator_ids : Option (List String)) (opt : OptOracle) (bal : BalOracle)
    (all_people : List Person) (pre post : List (String × List Person))
    (cname : String) (bucket : List Person)
    (hsplit : group_people_by_course all_people = pre ++ (cname, bucket) :: post)
    (hshort : bucket.length < min_people
      ∨ ∃ s, facilitator_ids = some s ∧ s ≠ []
          ∧ ∀ p ∈ bucket, s.contains p.id = false) :
    alookup (schedule_people all_people min_people balance
        facilitator_ids opt bal).course_results cname
      = some ⟨cname, [], 0, bucket⟩
    ∧ cname ∉ (runCourses min_people balance facilitator_ids opt bal initState
        (group_people_by_course all_people)).callLog := by
  have hnd := gpbc_keys_nodup all_people
  rw [hsplit] at hnd
  rw [List.map_append, List.map_cons] at hnd
  rw [List.nodup_append] at hnd
  have hnotpre : cname ∉ pre.map (fun e => e.1) := by
    intro hmem
    exact hnd.2.2 hmem (List.mem_cons_self _ _)
  have hnotpost : cname ∉ post.map (fun e => e.1) := by
    have := hnd.2.1
    rw [List.nodup_cons] at this
    exact this.1
  have hrunsplit :
      runCourses min_people balance facilitator_ids opt bal initState
          (group_people_by_course all_people)
        = runCourses min_people balance facilitator_ids opt bal
            (stepCourse min_people balance facilitator_ids opt bal
              (runCourses min_people balance facilitator_ids opt bal initState pre)
              (cname, bucket))
            post := by
    rw [hsplit, runCourses_append, runCourses]
  obtain ⟨extraPre, hexPre, hkeysPre⟩ :=
    runCourses_results min_people balance facilitator_ids opt bal pre initState
  have hshortstep := stepCourse_short min_people balance facilitator_ids opt bal
    (runCourses min_people balance facilitator_ids opt bal initState pre)
    (cname, bucket) hshort
  obtain ⟨extraPost, hexPost, hkeysPost⟩ :=
    runCourses_results min_people balance facilitator_ids opt bal post
      (stepCourse min_people balance facilitator_ids opt bal
        (runCourses min_people balance facilitator_ids opt bal initState pre)
        (cname, bucket))
  have hpreres : (runCourses min_people balance facilitator_ids opt bal initState
      pre).course_results = extraPre := by
    rw [hexPre]
    rfl
  constructor
  · show alookup (runCourses min_people balance facilitator_ids opt bal initState
        (group_people_by_course all_people)).course_results cname = _
    rw [hrunsplit, hexPost, hshortstep]
    dsimp only
    rw [hpreres, List.append_assoc, List.singleton_append]
    refine alookup_middle extraPre extraPost cname _ ?_
    intro e he heq
    exact hnotpre (heq ▸ hkeysPre e he)
  · intro hmem
    rw [hrunsplit] at hmem
    rcases runCourses_callLog min_people balance facilitator_ids opt bal post _ cname hmem
      with h | h
    · rw [hshortstep] at h
      dsimp only at h
      rcases runCourses_callLog min_people balance facilitator_ids opt bal pre initState
          cname h with h' | h'
      · simp [initState] at h'
      · exact hnotpre h'
    · exact hnotpost h

/-! ## C1: sequential blocking across courses -/

theorem remove_blocked_id (p : Person) (blocked : List (Int × Int)) :
    (remove_blocked_intervals p blocked).id = p.id := by
  cases blocked <;> rfl

theorem conflictsAny_of_mem (iv t : Int × Int) (blocked : List (Int × Int)) (ht : t ∈ blocked)
    (h : iv.1 < t.2 ∧ t.1 < iv.2) : conflictsAny iv blocked = true := by
  simp only [conflictsAny, List.any_eq_true, decide_eq_true_eq]
  exact ⟨t, ht, h.1, h.2⟩

/-- Any interval surviving remove_blocked_intervals is conflict-free with
every member of the blocked list, in particular with `t`. -/
theorem remove_blocked_no_conflict (p : Person) (blocked : List (Int × Int)) (t : Int × Int)
    (ht : t ∈ blocked) :
    (∀ iv ∈ (remove_blocked_intervals p blocked).intervals, ¬ (iv.1 < t.2 ∧ t.1 < iv.2))
      ∧ ∀ iv ∈ (remove_blocked_intervals p blocked).if_needed_intervals,
          ¬ (iv.1 < t.2 ∧ t.1 < iv.2) := by
  cases blocked with
  | nil => cases ht
  | cons b rest =>
      constructor <;> intro iv hiv hconf
      · have hkeep := List.of_mem_filter hiv
        rw [conflictsAny_of_mem iv t (b :: rest) ht hconf] at hkeep
        simp at hkeep
      · have hkeep := List.of_mem_filter hiv
        rw [conflictsAny_of_mem iv t (b :: rest) ht hconf] at hkeep
        simp at hkeep

theorem mem_lookupD_people_foldl (people : List Person) (t : Int × Int) :
    ∀ (m : List (String × List (Int × Int))) (k : String) (x : Int × Int),
      x ∈ lookupD m k →
      x ∈ lookupD (people.foldl (fun m p => dictAppend m p.id t) m) k := by
  induction people with
  | nil => exact fun _ _ _ h => h
  | cons p rest ih =>
      intro m k x h
      rw [List.foldl_cons]
      exact ih _ k x (mem_lookupD_dictAppend_of_mem m p.id k t x h)

theorem mem_lookupD_people_foldl_self (people : List Person) (t : Int × Int) (p : Person) :
    p ∈ people →
    ∀ m : List (String × List (Int × Int)),
      t ∈ lookupD (people.foldl (fun m q => dictAppend m q.id t) m) p.id := by
  induction people with
  | nil => intro h; cases h
  | cons q rest ih =>
      intro hp m
      rw [List.foldl_cons]
      rcases List.mem_cons.mp hp with h | h
      · subst h
        exact mem_lookupD_people_foldl rest t _ p.id t
          ((mem_lookupD_dictAppend m p.id p.id t t).mpr (Or.inr ⟨rfl, rfl⟩))
      · exact ih h _

theorem recordGroupTimes_cons (m : List (String × List (Int × Int))) (g : Group)
    (gs : List Group) :
    recordGroupTimes m (g :: gs) = recordGroupTimes (recordGroupStep m g) gs := rfl

theorem mem_lookupD_recordGroupStep (m : List (String × List (Int × Int))) (g : Group)
    (k : String) (x : Int × Int) (h : x ∈ lookupD m k) :
    x ∈ lookupD (recordGroupStep m g) k := by
  cases hg : g.selected_time with
  | none => rw [recordGroupStep, hg]; exact h
  | some t =>
      rw [recordGroupStep, hg]
      exact mem_lookupD_people_foldl g.people t m k x h

theorem mem_lookupD_recordGroupTimes (sol : List Group) :
    ∀ (m : List (String × List (Int × Int))) (k : String) (x : Int × Int),
      x ∈ lookupD m k → x ∈ lookupD (recordGroupTimes m sol) k := by
  induction sol with
  | nil => exact fun _ _ _ h => h
  | cons g gs ih =>
      intro m k x h
      rw [recordGroupTimes_cons]
      exact ih _ k x (mem_lookupD_recordGroupStep m g k x h)

/-- If a group of `sol` carries selected_time `t` and member `p`, then
after recordGroupTimes the interval `t` is among `p`'s blocked times. -/
theorem mem_lookupD_recordGroupTimes_self (sol : List Group) (g : Group) (t : Int × Int)
    (p : Person) :
    g ∈ sol → g.selected_time = some t → p ∈ g.people →
    ∀ m : List (String × List (Int × Int)),
      t ∈ lookupD (recordGroupTimes m sol) p.id := by
  induction sol with
  | nil => intro h; cases h
  | cons g0 gs ih =>
      intro hg ht hp m
      rw [recordGroupTimes_cons]
      rcases List.mem_cons.mp hg with h | h
      · subst h
        have hstep : recordGroupStep m g
            = g.people.foldl (fun m q => dictAppend m q.id t) m := by
          rw [recordGroupStep, ht]
        rw [hstep]
        exact mem_lookupD_recordGroupTimes gs _ p.id t
          (mem_lookupD_people_foldl_self g.people t p hp m)
      · exact ih h ht hp _

theorem stepCourse_assigned_mono (min_people : Nat) (balance : Bool)
    (facilitator_ids : Option (List String)) (opt : OptOracle) (bal : BalOracle)
    (st : SchedState) (c : String × List Person) (k : String) (x : Int × Int)
    (h : x ∈ lookupD st.assigned_times k) :
    x ∈ lookupD (stepCourse min_people balance facilitator_ids opt bal st c).assigned_times
      k := by
  unfold stepCourse
  by_cases h1 : c.2.length < min_people
  · rw [if_pos h1]; exact h
  · rw [if_neg h1]
    by_cases h2 : courseFacIds facilitator_ids c.2 = some []
    · rw [if_pos h2]; exact h
    · rw [if_neg h2]
      by_cases h3 : (balancedOutcome balance opt bal facilitator_ids
          st.assigned_times c).1.1.isEmpty
      · rw [if_pos h3]; exact h
      · rw [if_neg h3]
        dsimp only
        exact mem_lookupD_recordGroupTimes _ _ _ _ h

theorem runCourses_assigned_mono (min_people : Nat) (balance : Bool)
    (facilitator_ids : Option (List String)) (opt : OptOracle) (bal : BalOracle)
    (l : List (String × List Person)) :
    ∀ (st : SchedState) (k : String) (x : Int × Int),
      x ∈ lookupD st.assigned_times k →
      x ∈ lookupD (runCourses min_people balance facilitator_ids opt bal st l).assigned_times
        k := by
  induction l with
  | nil => exact fun _ _ _ h => h
  | cons c cs ih =>
      intro st k x h
      rw [runCourses]
      exact ih _ k x (stepCourse_assigned_mono min_people balance facilitator_ids opt bal
        st c k x h)

theorem stepCourse_assigned_of_scheduled (min_people : Nat) (balance : Bool)
    (facilitator_ids : Option (List String)) (opt : OptOracle) (bal : BalOracle)
    (st : SchedState) (c : String × List Person)
    (h1 : ¬ c.2.length < min_people) (h2 : courseFacIds facilitator_ids c.2 ≠ some [])
    (h3 : ¬ (balancedOutcome balance opt bal facilitator_ids
        st.assigned_times c).1.1.isEmpty = true) :
    (stepCourse min_people balance facilitator_ids opt bal st c).assigned_times
      = recordGroupTimes st.assigned_times
          (balancedOutcome balance opt bal facilitator_ids st.assigned_times c).1.1 := by
  unfold stepCourse
  rw [if_neg h1, if_neg h2, if_neg h3]

/-- C1: if the run places person P into a group with selected_time t
while scheduling course A (the optimizer/balancer output recorded for A
contains such a group and A is not short-circuited), then at every later
course B of the same pass the adjusted availability handed to the Group
Optimizer for P — both interval lists — contains no range overlapping t.
Quantified over every population, every split of the course mapping and
every optimizer/balancer oracle. -/
theorem C1_sequential_blocking (min_people : Nat) (balance : Bool)
    (facilitator_ids : Option (List String)) (opt : OptOracle) (bal : BalOracle)
    (all_people : List Person) (pre mid post : List (String × List Person))
    (A B : String × List Person)
    (hsplit : group_people_by_course all_people = pre ++ A :: (mid ++ B :: post))
    (P : String) (t : Int × Int) (g : Group)
    (hA1 : ¬ A.2.length < min_people)
    (hA2 : courseFacIds facilitator_ids A.2 ≠ some [])
    (hg : g ∈ (balancedOutcome balance opt bal facilitator_ids
        (runCourses min_people balance facilitator_ids opt bal initState pre).assigned_times
        A).1.1)
    (ht : g.selected_time = some t)
    (p0 : Person) (hp0 : p0 ∈ g.people) (hpid : p0.id = P)
    (q : Person)
    (hq : q ∈ adjustPeople
        (runCourses min_people balance facilitator_ids opt bal initState
          (pre ++ A :: mid)).assigned_times B.2)
    (hqid : q.id = P) :
    (∀ iv ∈ q.intervals, ¬ (iv.1 < t.2 ∧ t.1 < iv.2))
      ∧ ∀ iv ∈ q.if_needed_intervals, ¬ (iv.1 < t.2 ∧ t.1 < iv.2) := by
  have hA3 : ¬ (balancedOutcome balance opt bal facilitator_ids
      (runCourses min_people balance facilitator_ids opt bal initState pre).assigned_times
      A).1.1.isEmpty = true := by
    intro hEmp
    exact List.ne_nil_of_mem hg (List.isEmpty_iff.mp hEmp)
  have hstepA : t ∈ lookupD
      ((stepCourse min_people balance facilitator_ids opt bal
        (runCourses min_people balance facilitator_ids opt bal initState pre) A).assigned_times)
      P := by
    rw [stepCourse_assigned_of_scheduled min_people balance facilitator_ids opt bal _ A
      hA1 hA2 hA3]
    have := mem_lookupD_recordGroupTimes_self _ g t p0 hg ht hp0
      (runCourses min_people balance facilitator_ids opt bal initState pre).assigned_times
    rw [hpid] at this
    exact this
  have hB : t ∈ lookupD
      (runCourses min_people balance facilitator_ids opt bal initState
        (pre ++ A :: mid)).assigned_times P := by
    rw [runCourses_append, runCourses]
    exact runCourses_assigned_mono min_people balance facilitator_ids opt bal mid _ P t hstepA
  rcases List.mem_map.mp hq with ⟨p1, hp1, hq1⟩
  have hid1 : p1.id = P := by
    rw [← hqid, ← hq1]
    exact (remove_blocked_id p1 _).symm
  rw [← hq1, hid1]
  exact remove_blocked_no_conflict p1 _ t (hid1 ▸ hB)

/-! ## C4: the overlap matcher (src/core/cohorts.py) -/

/-- Stored user availability as the matcher consumes it: per weekday the
hour slots.  The code extracts `int(slot.split(":")[0])` from each
"HH:MM" slot string; the slot is modelled by its parsed hour. -/
structure UserData where
  availability : List (String × List Nat)
  if_needed : List (String × List Nat)
deriving DecidableEq, Repr

/-- A `(day, hour)` key of the availability maps. -/
abbrev SlotKey := String × Nat

/-- One member's contribution to one of the two slot maps. -/
def addUserSlots (mid : String) (entries : List (String × List Nat))
    (m : List (SlotKey × List String)) : List (SlotKey × List String) :=
  entries.foldl (fun m e => e.2.foldl (fun m hour => dictAppend m (e.1, hour) mid) m) m

/-- The `all_available` and `all_if_needed` dicts built by
find_availability_overlap (cohorts.py lines 31-57): members with no user
data are skipped. -/
def collectMaps (get_fn : String → Option UserData) (member_ids : List String) :
    List (SlotKey × List String) × List (SlotKey × List String) :=
  member_ids.foldl
    (fun maps mid =>
      match get_fn mid with
      | none => maps
      | some d =>
          (addUserSlots mid d.availability maps.1, addUserSlots mid d.if_needed maps.2))
    ([], [])

/-- Python's `set(user_ids) == member_id_set`. -/
def setEq (a b : List String) : Bool :=
  a.all (fun x => b.contains x) && b.all (fun x => a.contains x)

/-- find_availability_overlap from src/core/cohorts.py.  Pass 2 iterates
the set-union of the two key sets; Python's set iteration order is
unspecified, modelled here as first-occurrence order of the concatenated
key lists. -/
def find_availability_overlap (member_ids : List String)
    (get_fn : String → Option UserData) : Option SlotKey :=
  match (collectMaps get_fn member_ids).1.find? (fun e => setEq e.2 member_ids) with
  | some e => some e.1
  | none =>
      (((collectMaps get_fn member_ids).1.map (fun e => e.1)
          ++ (collectMaps get_fn member_ids).2.map (fun e => e.1)).dedup).find?
        (fun k => setEq
          (lookupD (collectMaps get_fn member_ids).1 k
            ++ lookupD (collectMaps get_fn member_ids).2 k)
          member_ids)

/-- An entry list marks slot `k`. -/
def hasSlot (entries : List (String × List Nat)) (k : SlotKey) : Bool :=
  entries.any (fun e => e.1 == k.1 && e.2.contains k.2)

/-- Member `m` is fully available at slot `k`: they have user data whose
availability marks `k`. -/
def fullyAvailable (get_fn : String → Option UserData) (m : String) (k : SlotKey) : Prop :=
  ∃ d, get_fn m = some d ∧ hasSlot d.availability k = true

/-- Member `m` marks slot `k` if-needed. -/
def ifNeededAt (get_fn : String → Option UserData) (m : String) (k : SlotKey) : Prop :=
  ∃ d, get_fn m = some d ∧ hasSlot d.if_needed k = true

theorem mem_lookupD_hours_foldl (hs : List Nat) (day : String) (mid : String) :
    ∀ (m : List (SlotKey × List String)) (k : SlotKey) (x : String),
      x ∈ lookupD (hs.foldl (fun m hour => dictAppend m (day, hour) mid) m) k
        ↔ x ∈ lookupD m k ∨ (x = mid ∧ k.1 = day ∧ k.2 ∈ hs) := by
  induction hs with
  | nil => simp
  | cons h0 rest ih =>
      intro m k x
      rw [List.foldl_cons, ih, mem_lookupD_dictAppend]
      simp only [List.mem_cons, Prod.ext_iff]
      tauto

theorem hasSlot_iff (entries : List (String × List Nat)) (k : SlotKey) :
    hasSlot entries k = true ↔ ∃ e ∈ entries, e.1 = k.1 ∧ k.2 ∈ e.2 := by
  simp [hasSlot]

theorem mem_lookupD_addUserSlots (entries : List (String × List Nat)) (mid : String) :
    ∀ (m : List (SlotKey × List String)) (k : SlotKey) (x : String),
      x ∈ lookupD (addUserSlots mid entries m) k
        ↔ x ∈ lookupD m k ∨ (x = mid ∧ hasSlot entries k = true) := by
  induction entries with
  | nil => simp [addUserSlots, hasSlot]
  | cons e rest ih =>
      intro m k x
      rw [show addUserSlots mid (e :: rest) m
          = addUserSlots mid rest (e.2.foldl (fun m hour => dictAppend m (e.1, hour) mid) m)
        from rfl, ih, mem_lookupD_hours_foldl]
      simp only [hasSlot_iff, List.mem_cons]
      constructor
      · rintro ((h | ⟨hx, h1, h2⟩) | ⟨hx, e', he', h3, h4⟩)
        · exact Or.inl h
        · exact Or.inr ⟨hx, e, Or.inl rfl, h1.symm, h2⟩
        · exact Or.inr ⟨hx, e', Or.inr he', h3, h4⟩
      · rintro (h | ⟨hx, e', he', h3, h4⟩)
        · exact Or.inl (Or.inl h)
        · rcases he' with rfl | he'
          · exact Or.inl (Or.inr ⟨hx, h3.symm, h4⟩)
          · exact Or.inr ⟨hx, e', he', h3, h4⟩

theorem mem_lookupD_collect_foldl (get_fn : String → Option UserData) (ids : List String) :
    ∀ (maps : List (SlotKey × List String) × List (SlotKey × List String)) (k : SlotKey)
      (x : String),
      (x ∈ lookupD (ids.foldl
            (fun maps mid =>
              match get_fn mid with
              | none => maps
              | some d =>
                  (addUserSlots mid d.availability maps.1, addUserSlots mid d.if_needed maps.2))
            maps).1 k
          ↔ x ∈ lookupD maps.1 k ∨ (x ∈ ids ∧ fullyAvailable get_fn x k))
      ∧ (x ∈ lookupD (ids.foldl
            (fun maps mid =>
              match get_fn mid with
              | none => maps
              | some d =>
                  (addUserSlots mid d.availability maps.1, addUserSlots mid d.if_needed maps.2))
            maps).2 k
          ↔ x ∈ lookupD maps.2 k ∨ (x ∈ ids ∧ ifNeededAt get_fn x k)) := by
  induction ids with
  | nil => simp
  | cons mid rest ih =>
      intro maps k x
      rw [List.foldl_cons]
      cases hm : get_fn mid with
      | none =>
          dsimp only
          constructor
          · rw [(ih maps k x).1]
            constructor
            · rintro (h | h)
              · exact Or.inl h
              · exact Or.inr ⟨List.mem_cons_of_mem _ h.1, h.2⟩
            · rintro (h | ⟨hmem, hav⟩)
              · exact Or.inl h
              · rcases List.mem_cons.mp hmem with rfl | hmem'
                · rcases hav with ⟨d, hd, _⟩
                  rw [hm] at hd
                  cases hd
                · exact Or.inr ⟨hmem', hav⟩
          · rw [(ih maps k x).2]
            constructor
            · rintro (h | h)
              · exact Or.inl h
              · exact Or.inr ⟨List.mem_cons_of_mem _ h.1, h.2⟩
            · rintro (h | ⟨hmem, hav⟩)
              · exact Or.inl h
              · rcases List.mem_cons.mp hmem with rfl | hmem'
                · rcases hav with ⟨d, hd, _⟩
                  rw [hm] at hd
                  cases hd
                · exact Or.inr ⟨hmem', hav⟩
      | some d =>
          dsimp only
          constructor
          · rw [(ih _ k x).1]
            constructor
            · rintro (h | h)
              · rcases (mem_lookupD_addUserSlots d.availability mid maps.1 k x).mp h with
                  h' | ⟨rfl, hslot⟩
                · exact Or.inl h'
                · exact Or.inr ⟨List.mem_cons_self _ _, ⟨d, hm, hslot⟩⟩
              · exact Or.inr ⟨List.mem_cons_of_mem _ h.1, h.2⟩
            · rintro (h | ⟨hmem, hav⟩)
              · exact Or.inl ((mem_lookupD_addUserSlots d.availability mid maps.1 k x).mpr
                  (Or.inl h))
              · rcases List.mem_cons.mp hmem with rfl | hmem'
                · rcases hav with ⟨d', hd', hslot⟩
                  rw [hm] at hd'
                  injection hd' with hdd
                  subst hdd
                  exact Or.inl ((mem_lookupD_addUserSlots _ x maps.1 k x).mpr
                    (Or.inr ⟨rfl, hslot⟩))
                · exact Or.inr ⟨hmem', hav⟩
          · rw [(ih _ k x).2]
            constructor
            · rintro (h | h)
              · rcases (mem_lookupD_addUserSlots d.if_needed mid maps.2 k x).mp h with
                  h' | ⟨rfl, hslot⟩
                · exact Or.inl h'
                · exact Or.inr ⟨List.mem_cons_self _ _, ⟨d, hm, hslot⟩⟩
              · exact Or.inr ⟨List.mem_cons_of_mem _ h.1, h.2⟩
            · rintro (h | ⟨hmem, hav⟩)
              · exact Or.inl ((mem_lookupD_addUserSlots d.if_needed mid maps.2 k x).mpr
                  (Or.inl h))
              · rcases List.mem_cons.mp hmem with rfl | hmem'
                · rcases hav with ⟨d', hd', hslot⟩
                  rw [hm] at hd'
                  injection hd' with hdd
                  subst hdd
                  exact Or.inl ((mem_lookupD_addUserSlots _ x maps.2 k x).mpr
                    (Or.inr ⟨rfl, hslot⟩))
                · exact Or.inr ⟨hmem', hav⟩

theorem keys_nodup_hours_foldl (hs : List Nat) (day : String) (mid : String) :
    ∀ m : List (SlotKey × List String), (m.map (fun e => e.1)).Nodup →
      ((hs.foldl (fun m hour => dictAppend m (day, hour) mid) m).map (fun e => e.1)).Nodup := by
  induction hs with
  | nil => exact fun _ h => h
  | cons h0 rest ih =>
      intro m h
      rw [List.foldl_cons]
      exact ih _ (keys_nodup_dictAppend m (day, h0) mid h)

theorem keys_nodup_addUserSlots (entries : List (String × List Nat)) (mid : String) :
    ∀ m : List (SlotKey × List String), (m.map (fun e => e.1)).Nodup →
      ((addUserSlots mid entries m).map (fun e => e.1)).Nodup := by
  induction entries with
  | nil => exact fun _ h => h
  | cons e rest ih =>
      intro m h
      rw [show addUserSlots mid (e :: rest) m
          = addUserSlots mid rest (e.2.foldl (fun m hour => dictAppend m (e.1, hour) mid) m)
        from rfl]
      exact ih _ (keys_nodup_hours_foldl e.2 e.1 mid m h)

theorem collectMaps_keys_nodup (get_fn : String → Option UserData) (ids : List String) :
    (((collectMaps get_fn ids).1).map (fun e => e.1)).Nodup
      ∧ (((collectMaps get_fn ids).2).map (fun e => e.1)).Nodup := by
  suffices hgen : ∀ maps : List (SlotKey × List String) × List (SlotKey × List String),
      (maps.1.map (fun e => e.1)).Nodup → (maps.2.map (fun e => e.1)).Nodup →
      (((ids.foldl
          (fun maps mid =>
            match get_fn mid with
            | none => maps
            | some d =>
                (addUserSlots mid d.availability maps.1, addUserSlots mid d.if_needed maps.2))
          maps).1.map (fun e => e.1)).Nodup
        ∧ ((ids.foldl
          (fun maps mid =>
            match get_fn mid with
            | none => maps
            | some d =>
                (addUserSlots mid d.availability maps.1, addUserSlots mid d.if_needed maps.2))
          maps).2.map (fun e => e.1)).Nodup) by
    exact hgen ([], []) (by simp) (by simp)
  induction ids with
  | nil => exact fun maps h1 h2 => ⟨h1, h2⟩
  | cons mid rest ih =>
      intro maps h1 h2
      rw [List.foldl_cons]
      cases hm : get_fn mid with
      | none =>
          dsimp only
          exact ih maps h1 h2
      | some d =>
          dsimp only
          exact ih _ (keys_nodup_addUserSlots d.availability mid maps.1 h1)
            (keys_nodup_addUserSlots d.if_needed mid maps.2 h2)

theorem setEq_iff (a b : List String) :
    setEq a b = true ↔ (∀ x ∈ a, x ∈ b) ∧ ∀ x ∈ b, x ∈ a := by
  simp [setEq]

/-- C4 as frozen fails on the empty member list: every slot vacuously has
all requested members fully available, yet the matcher returns no slot.
The amended guarantee: for a non-empty member list, if some slot has
every member fully available, the matcher returns a slot (found in pass
1) at which every member is fully available — never one needing an
if-needed mark. -/
theorem C4_amended_overlap_preference (member_ids : List String)
    (get_fn : String → Option UserData) (hne : member_ids ≠ [])
    (hex : ∃ day hour, ∀ m ∈ member_ids, fullyAvailable get_fn m (day, hour)) :
    ∃ k, find_availability_overlap member_ids get_fn = some k
      ∧ ∀ m ∈ member_ids, fullyAvailable get_fn m k := by
  obtain ⟨day, hour, hall⟩ := hex
  obtain ⟨m0, hm0⟩ : ∃ m0, m0 ∈ member_ids := List.exists_mem_of_ne_nil member_ids hne
  have hchar : ∀ (k : SlotKey) (x : String),
      x ∈ lookupD (collectMaps get_fn member_ids).1 k
        ↔ x ∈ member_ids ∧ fullyAvailable get_fn x k := by
    intro k x
    have := (mem_lookupD_collect_foldl get_fn member_ids ([], []) k x).1
    simpa [collectMaps, lookupD] using this
  have hm0mem : m0 ∈ lookupD (collectMaps get_fn member_ids).1 (day, hour) :=
    (hchar _ m0).mpr ⟨hm0, hall m0 hm0⟩
  have hkey : ((day, hour), lookupD (collectMaps get_fn member_ids).1 (day, hour))
      ∈ (collectMaps get_fn member_ids).1 :=
    entry_of_lookupD_ne_nil _ _ (fun hnil => by rw [hnil] at hm0mem; cases hm0mem)
  have hpred : setEq (lookupD (collectMaps get_fn member_ids).1 (day, hour)) member_ids
      = true := by
    rw [setEq_iff]
    constructor
    · intro x hx
      exact ((hchar _ x).mp hx).1
    · intro x hx
      exact (hchar _ x).mpr ⟨hx, hall x hx⟩
  have hsome : ((collectMaps get_fn member_ids).1.find?
      (fun e => setEq e.2 member_ids)).isSome := by
    rw [List.find?_isSome]
    exact ⟨_, hkey, hpred⟩
  obtain ⟨e, he⟩ := Option.isSome_iff_exists.mp hsome
  have hpe := List.find?_some he
  have hmeme : e ∈ (collectMaps get_fn member_ids).1 := List.mem_of_find?_eq_some he
  have he2 : lookupD (collectMaps get_fn member_ids).1 e.1 = e.2 :=
    lookupD_of_mem_of_nodup _ e (collectMaps_keys_nodup get_fn member_ids).1 hmeme
  refine ⟨e.1, ?_, ?_⟩
  · unfold find_availability_overlap
    rw [he]
  · intro m hm
    have hmine : m ∈ e.2 := ((setEq_iff e.2 member_ids).mp hpe).2 m hm
    rw [← he2] at hmine
    exact ((hchar e.1 m).mp hmine).2

/-- Counterexample to C4 as frozen: with no requested members, every slot
vacuously has all members fully available, but the matcher returns
None instead of a slot. -/
theorem C4_counterexample :
    (∀ m ∈ ([] : List String), fullyAvailable (fun _ => none) m ("Monday", 14))
      ∧ find_availability_overlap [] (fun _ => none) = none :=
  ⟨fun m hm => absurd hm (List.not_mem_nil m), rfl⟩

def c4get : String → Option UserData :=
  fun s => if s = "u1" then some ⟨[("Monday", [14])], []⟩ else none

/-- A do-nothing optimizer oracle. -/
def trivOpt : OptOracle := fun _ _ _ => ([], 0)

/-- A do-nothing balancer oracle. -/
def trivBal : BalOracle := fun _ gs => (gs, 0)

/-- Counterexample to C2 as frozen: empty population, facilitator mode
on, zero facilitators marked — the claim's iff demands
NoFacilitatorsError, but the code raises NoUsersError. -/
theorem C2_counterexample :
    facilitatorsOf [] = []
      ∧ schedule [] [] true 4 true trivOpt trivBal
          ≠ Except.error SchedulingError.noFacilitators := by
  refine ⟨rfl, ?_⟩
  intro h
  rw [show schedule [] [] true 4 true trivOpt trivBal
      = Except.error SchedulingError.noUsers from rfl] at h
  exact SchedulingError.noConfusion (Except.error.inj h)

def c5person : Person := ⟨"dan", "Dan", [(0, 60)], [], "UTC", ["a"], ""⟩

/-- An optimizer output with no groups but a non-zero score. -/
def c5opt : OptOracle := fun _ _ _ => ([], 1)

/-- Counterexample to C5 as frozen: the score of a group-less optimizer
output is recorded per-course but not totalled. -/
theorem C5_counterexample :
    (schedule_people [c5person] 1 false none c5opt trivBal).total_scheduled
      ≠ ((schedule_people [c5person] 1 false none c5opt trivBal).course_results.map
          (fun e => e.2.score)).sum := by decide

def c6person : Person := ⟨"erin", "Erin", [(0, 60)], [], "UTC", ["a"], ""⟩

/-- Witness for C6 at a concrete undersized course. -/
theorem C6_witness :
    alookup (schedule_people [c6person] 2 true none trivOpt trivBal).course_results "a"
        = some ⟨"a", [], 0, [c6person]⟩
      ∧ "a" ∉ (runCourses 2 true none trivOpt trivBal initState
          (group_people_by_course [c6person])).callLog :=
  C6_per_course_short_circuit 2 true none trivOpt trivBal [c6person] [] [] "a" [c6person]
    (by rfl) (Or.inl (by decide))

def c1person : Person := ⟨"p1", "P One", [(0, 120)], [], "UTC", ["a", "b"], ""⟩

/-- An optimizer that places the whole population of course "a" into one
group meeting at minutes 0-60, and nobody elsewhere. -/
def c1opt : OptOracle := fun cname ppl _ =>
  if cname = "a" then ([⟨ppl, some (0, 60)⟩], 1) else ([], 0)

def c1group : Group := ⟨[c1person], some (0, 60)⟩

/-- The adjusted person course "b" receives after "a" claimed 0-60. -/
def c1q : Person := remove_blocked_intervals c1person [(0, 60)]

/-- Witness for C1 at a concrete two-course run: after course "a" books
minutes 0-60, the availability handed to the optimizer for course "b"
holds no interval overlapping it. -/
theorem C1_witness :
    (∀ iv ∈ c1q.intervals,
        ¬ (iv.1 < ((0, 60) : Int × Int).2 ∧ ((0, 60) : Int × Int).1 < iv.2))
      ∧ ∀ iv ∈ c1q.if_needed_intervals,
          ¬ (iv.1 < ((0, 60) : Int × Int).2 ∧ ((0, 60) : Int × Int).1 < iv.2) :=
  C1_sequential_blocking 1 false none c1opt trivBal [c1person]
    [] [] [] ("a", [c1person]) ("b", [c1person]) (by rfl)
    "p1" (0, 60) c1group (by decide) (by decide) (by decide) (by rfl)
    c1person (by decide) (by rfl) c1q (by decide) (by rfl)

/-- Witness for the amended C4 at a concrete member and availability. -/
theorem C4_witness :
    ∃ k, find_availability_overlap ["u1"] c4get = some k
      ∧ ∀ m ∈ ["u1"], fullyAvailable c4get m k :=
  C4_amended_overlap_preference ["u1"] c4get (by decide)
    ⟨"Monday", 14, fun m hm => by
      rcases List.mem_singleton.mp hm with rfl
      exact ⟨⟨[("Monday", [14])], []⟩, by decide, by decide⟩⟩

end Scheduling
